import Mathlib

/-!
# Verification of hypercorecrypto's hashing and derivation core

A shallow embedding of the Go package `hypercorecrypto` (file
`hypercorecrypto.go`): deterministic, domain-separated Merkle hashing of
leaves, parents and roots, discovery-key derivation, namespace expansion and
the unsigned-varint integer serialization.

Byte sequences are modelled as `List Nat` (each element a byte value).  The
hash primitive (blake2b-256 in the Go code) is an external collaborator per
the design, so every operation is parametrized by a function
`H : Bytes → Bytes`; the streaming hash object is modelled as the list of all
bytes written to it, with `Sum(b)` returning `b ++ H buffer` exactly as Go's
`hash.Hash.Sum` appends the digest to its argument.  Go's `uint64`
arithmetic is `Nat` arithmetic reduced `% 2 ^ 64` at the one place the code
adds sizes.
-/

set_option maxRecDepth 4000

namespace HypercoreCrypto

/-- Byte sequences: each element is one byte value. -/
abbrev Bytes := List Nat

/-- `LeafType = byte(0)` from the source. -/
def LeafType : Nat := 0

/-- `ParentType = byte(1)` from the source. -/
def ParentType : Nat := 1

/-- `RootType = byte(2)` from the source. -/
def RootType : Nat := 2

/-- `Hypercore = "hypercore"` from the source, as its ASCII bytes. -/
def Hypercore : Bytes := "hypercore".data.map Char.toNat

/-- `TreeNode` from the source: `Index uint64`, `Hash []byte`, `Size uint64`. -/
structure TreeNode where
  Index : Nat
  Hash : Bytes
  Size : Nat
deriving DecidableEq

/-- Go's `binary.PutUvarint` written to a fresh buffer and sliced to the
bytes produced (`buf[:n]`): while `x >= 0x80` emit `byte(x) | 0x80` and shift
`x` right by 7, then emit the final byte. -/
def putUvarint (x : Nat) : Bytes :=
  if x < 128 then [x % 256]
  else (x % 256 ||| 128) :: putUvarint (x >>> 7)
termination_by x
decreasing_by
  simp only [Nat.shiftRight_eq_div_pow]
  exact Nat.div_lt_self (by omega) (by norm_num)

/-- The streaming hash object: the state is the list of bytes written so far. -/
structure Hasher where
  buf : Bytes

/-- `blake2b.New256()`: a fresh hash object with an empty buffer. -/
def Hasher.new : Hasher := ⟨[]⟩

/-- `hash.Write(b)`: append the bytes to the stream. -/
def Hasher.write (h : Hasher) (b : Bytes) : Hasher := ⟨h.buf ++ b⟩

/-- `hash.Sum(pre)`: append the digest of everything written to `pre`,
where `H` is the hash primitive. -/
def Hasher.sum (h : Hasher) (H : Bytes → Bytes) (pre : Bytes) : Bytes :=
  pre ++ H h.buf

/-- The hash-primitive contract from the design: a fixed 32-byte digest. -/
def HashPrim (H : Bytes → Bytes) : Prop :=
  ∀ x, (H x).length = 32

/-- `writeUvarint(w, x)` from the source: `binary.PutUvarint` into a
scratch buffer, then `w.Write(buf[:n])`; the writer is modelled as the byte
list written so far. -/
def writeUvarint (w : Bytes) (x : Nat) : Bytes :=
  w ++ putUvarint x

/-- `WriteUvarint(w, x)` from the source: identical body to `writeUvarint`. -/
def WriteUvarint (w : Bytes) (x : Nat) : Bytes :=
  w ++ putUvarint x

/-- `Data(data)` from the source: write `[LeafType]`, the uvarint of
`uint64(len(data))` and `data`, then `hash.Sum(nil)`. -/
def Data (H : Bytes → Bytes) (data : Bytes) : Bytes :=
  (((Hasher.new.write [LeafType]).write
      (putUvarint data.length)).write data).sum H []

/-- `Parent(a, b)` from the source: swap so the smaller `Index` comes first,
write `[ParentType]`, the uvarint of the `uint64` sum of the sizes and the two
child hashes, then `hash.Sum(out[:0])` on a fresh 32-byte `out`. -/
def Parent (H : Bytes → Bytes) (a b : TreeNode) : Bytes :=
  let p := if a.Index > b.Index then (b, a) else (a, b)
  let out : Bytes := List.replicate 32 0
  ((((Hasher.new.write [ParentType]).write
      (putUvarint ((p.1.Size + p.2.Size) % 2 ^ 64))).write
      p.1.Hash).write p.2.Hash).sum H (out.take 0)

/-- `Tree(roots, out)` from the source: write `[RootType]` then, for each
root in order, its hash and the uvarints of its index and size; allocate
`out` when `nil`, and return `hash.Sum(out[:0])`. -/
def Tree (H : Bytes → Bytes) (roots : List TreeNode) (out : Option Bytes) :
    Bytes :=
  let h := Hasher.new.write [RootType]
  let h := roots.foldl
    (fun h r => ((h.write r.Hash).write (putUvarint r.Index)).write
      (putUvarint r.Size)) h
  let o := out.getD (List.replicate 32 0)
  h.sum H (o.take 0)

/-- `DiscoveryKey(publicKey)` from the source: write the `Hypercore` literal
and the public key, then `hash.Sum(nil)`. -/
def DiscoveryKey (H : Bytes → Bytes) (publicKey : Bytes) : Bytes :=
  ((Hasher.new.write Hypercore).write publicKey).sum H []

/-- Go's `copy(dst, src)`: overwrite the first `min |dst| |src|` bytes of
`dst` with those of `src`, keeping the rest of `dst`. -/
def goCopy (dst src : Bytes) : Bytes :=
  src.take dst.length ++ dst.drop src.length

/-- `Namespace(name, count)` from the source: `make` panics for a negative
`count` (modelled as `none`); otherwise hash `name` into the first 32 bytes
of a 33-byte scratch `ns`, and for each `i` set `ns[32] = byte(i)`, rehash,
and copy the digest into the `i`-th zeroed 32-byte slot of the output
buffer. -/
def Namespace (H : Bytes → Bytes) (name : Bytes) (count : Int) :
    Option (List Bytes) :=
  if count < 0 then none
  else
    let seed := (Hasher.new.write name).sum H []
    let ns := goCopy (List.replicate 33 0) seed
    some ((List.range count.toNat).map fun i =>
      goCopy (List.replicate 32 0)
        ((Hasher.new.write (ns.set 32 (i % 256))).sum H []))

/-- Spec-side little-endian base-128 reading of a varint byte stream: each
byte contributes its low 7 bits, least significant first. -/
def uvarintDecode : Bytes → Nat
  | [] => 0
  | b :: bs => b % 128 + 128 * uvarintDecode bs

/-- Spec-side well-formedness of a varint byte stream: nonempty, every byte
before the last carries the continuation bit (and fits in a byte) and the
last byte does not.  Padded encodings (a superfluous trailing zero digit)
are still well-formed, just longer than necessary. -/
def validVarint : Bytes → Bool
  | [] => false
  | [b] => decide (b < 128)
  | b :: c :: bs => decide (128 ≤ b) && decide (b < 256) && validVarint (c :: bs)

/-- The node of smaller `Index`, `a` on a tie — the spec's canonical left
child. -/
def specLeft (a b : TreeNode) : TreeNode :=
  if b.Index < a.Index then b else a

/-- The node of larger `Index`, `b` on a tie — the spec's canonical right
child. -/
def specRight (a b : TreeNode) : TreeNode :=
  if b.Index < a.Index then a else b

/-- A concrete 32-byte-output hash function used to instantiate the
abstract primitive in witnesses: the digest records the input's 33rd byte
(0 when absent) followed by its length, padded with zeros. -/
def Hc (l : Bytes) : Bytes :=
  l.getD 32 0 :: l.length % 256 :: List.replicate 30 0

theorem Hc_hashPrim : HashPrim Hc := by
  intro x
  simp [Hc, HashPrim]

/-- Unfold `putUvarint` into arithmetic form: the emitted byte is
`x % 128 + 128` and the shift is division by 128. -/
theorem putUvarint_eq (x : Nat) :
    putUvarint x =
      if x < 128 then [x] else (x % 128 + 128) :: putUvarint (x / 128) := by
  rw [putUvarint]
  by_cases h : x < 128
  · simp [h, Nat.mod_eq_of_lt (show x < 256 by omega)]
  · have hb : ∀ y < 256, y ||| 128 = y % 128 + 128 := by decide
    have h2 : x % 256 ||| 128 = x % 256 % 128 + 128 :=
      hb (x % 256) (Nat.mod_lt x (by norm_num))
    have h3 : x % 256 % 128 = x % 128 :=
      Nat.mod_mod_of_dvd x (by norm_num)
    simp [h, h2, h3, Nat.shiftRight_eq_div_pow]

/-- The bytes `Tree` writes for one root: its hash, then the uvarints of its
index and size. -/
def rootEnc (r : TreeNode) : Bytes :=
  r.Hash ++ putUvarint r.Index ++ putUvarint r.Size

theorem tree_foldl (roots : List TreeNode) (h : Hasher) :
    (roots.foldl
      (fun h r => ((h.write r.Hash).write (putUvarint r.Index)).write
        (putUvarint r.Size)) h).buf =
      h.buf ++ (roots.map rootEnc).flatten := by
  induction roots generalizing h with
  | nil => simp
  | cons r rs ih =>
    rw [List.foldl_cons, ih]
    simp [Hasher.write, rootEnc]

/-- C3: `Data(data)` hashes the stream `[LeafType]`, then the minimal
uvarint of `len(data)`, then `data` itself; determinism is immediate since
the operation is a pure function of its inputs. -/
theorem data_layout (H : Bytes → Bytes) (d : Bytes) :
    Data H d = H ([LeafType] ++ putUvarint d.length ++ d) := by
  simp [Data, Hasher.new, Hasher.write, Hasher.sum]

/-- C10: the digest returned by `Tree` never depends on the caller-supplied
`out` buffer — `Sum(out[:0])` appends the digest to an empty slice, so the
result equals the `nil`-buffer result byte for byte. -/
theorem tree_out_independent (H : Bytes → Bytes) (roots : List TreeNode)
    (out : Bytes) :
    Tree H roots (some out) = Tree H roots none := by
  simp [Tree, Hasher.sum]

/-- C2: `Tree(roots, nil)` hashes the stream `[RootType]` followed by, for
each root in the given order without re-sorting, its hash then the minimal
uvarints of its index and its size; the empty sequence hashes the single
byte `[RootType]`. -/
theorem tree_layout (H : Bytes → Bytes) (roots : List TreeNode) :
    Tree H roots none = H ([RootType] ++ (roots.map rootEnc).flatten) ∧
    Tree H [] none = H [RootType] := by
  constructor
  · simp only [Tree, Hasher.sum]
    rw [tree_foldl]
    simp [Hasher.new, Hasher.write]
  · simp [Tree, Hasher.new, Hasher.write, Hasher.sum]

/-- C1: `Parent(a, b)` hashes the stream `[ParentType]`, the minimal uvarint
of the 64-bit sum of the sizes, then the hash of the child with the smaller
index followed by the other; on an index tie no reordering occurs and `a` is
the left child. -/
theorem parent_layout (H : Bytes → Bytes) (a b : TreeNode) :
    Parent H a b =
      H ([ParentType] ++ putUvarint ((a.Size + b.Size) % 2 ^ 64) ++
        (specLeft a b).Hash ++ (specRight a b).Hash) ∧
    (a.Index = b.Index → specLeft a b = a ∧ specRight a b = b) := by
  refine ⟨?_, fun he => by simp [specLeft, specRight, he]⟩
  unfold Parent specLeft specRight
  by_cases h : b.Index < a.Index
  · simp [h, gt_iff_lt, Hasher.new, Hasher.write, Hasher.sum,
      Nat.add_comm b.Size a.Size]
  · simp [h, gt_iff_lt, Hasher.new, Hasher.write, Hasher.sum]

/-- Witness for C1 at a concrete pair of nodes sharing index 2, exercising
the tie case, with the concrete hash `Hc`. -/
theorem parent_layout_witness :
    Parent Hc ⟨2, [5], 3⟩ ⟨2, [6], 4⟩ =
      Hc ([ParentType] ++ putUvarint ((3 + 4) % 2 ^ 64) ++
        (specLeft ⟨2, [5], 3⟩ ⟨2, [6], 4⟩).Hash ++
        (specRight ⟨2, [5], 3⟩ ⟨2, [6], 4⟩).Hash) ∧
    ((⟨2, [5], 3⟩ : TreeNode).Index = (⟨2, [6], 4⟩ : TreeNode).Index →
      specLeft ⟨2, [5], 3⟩ ⟨2, [6], 4⟩ = ⟨2, [5], 3⟩ ∧
        specRight ⟨2, [5], 3⟩ ⟨2, [6], 4⟩ = ⟨2, [6], 4⟩) :=
  parent_layout Hc ⟨2, [5], 3⟩ ⟨2, [6], 4⟩

/-- C5: for nodes with distinct indices `Parent` is commutative — the
canonical index ordering makes the hashed stream independent of argument
order. -/
theorem parent_comm (H : Bytes → Bytes) (a b : TreeNode)
    (h : a.Index ≠ b.Index) :
    Parent H a b = Parent H b a := by
  unfold Parent
  rcases Nat.lt_or_ge a.Index b.Index with hlt | hge
  · simp [gt_iff_lt, hlt, Nat.lt_asymm hlt, Nat.add_comm]
  · have hgt : b.Index < a.Index := by omega
    simp [gt_iff_lt, hgt, Nat.lt_asymm hgt, Nat.add_comm]

/-- C6: `DiscoveryKey(publicKey)` hashes the 9 ASCII bytes of the literal
"hypercore" followed by the public key, is a pure function of `publicKey`,
and under the hash-primitive contract is always exactly 32 bytes. -/
theorem discoveryKey_spec (H : Bytes → Bytes) (hH : HashPrim H)
    (pk : Bytes) :
    DiscoveryKey H pk = H (Hypercore ++ pk) ∧
    Hypercore = [104, 121, 112, 101, 114, 99, 111, 114, 101] ∧
    (DiscoveryKey H pk).length = 32 := by
  refine ⟨?_, by decide, ?_⟩
  · simp [DiscoveryKey, Hasher.new, Hasher.write, Hasher.sum]
  · simp [DiscoveryKey, Hasher.sum, hH (Hasher.new.write Hypercore |>.write pk).buf]

/-- Witness for C6 at a concrete public key and the concrete 32-byte hash
function `Hc`. -/
theorem discoveryKey_spec_witness :
    HashPrim Hc ∧
      (DiscoveryKey Hc [1, 2, 3] = Hc (Hypercore ++ [1, 2, 3]) ∧
        Hypercore = [104, 121, 112, 101, 114, 99, 111, 114, 101] ∧
        (DiscoveryKey Hc [1, 2, 3]).length = 32) :=
  ⟨Hc_hashPrim, discoveryKey_spec Hc Hc_hashPrim [1, 2, 3]⟩

theorem putUvarint_ne_nil (x : Nat) : putUvarint x ≠ [] := by
  rw [putUvarint_eq]
  split <;> simp

theorem uvarintDecode_putUvarint (x : Nat) :
    uvarintDecode (putUvarint x) = x := by
  induction x using Nat.strong_induction_on with
  | _ x ih =>
    rw [putUvarint_eq]
    by_cases h : x < 128
    · simp [h, uvarintDecode, Nat.mod_eq_of_lt h]
    · have hd : x / 128 < x := Nat.div_lt_self (by omega) (by norm_num)
      simp only [h, if_false, uvarintDecode, ih _ hd]
      omega

theorem validVarint_putUvarint (x : Nat) :
    validVarint (putUvarint x) = true := by
  induction x using Nat.strong_induction_on with
  | _ x ih =>
    rw [putUvarint_eq]
    by_cases h : x < 128
    · simp [h, validVarint]
    · have hd : x / 128 < x := Nat.div_lt_self (by omega) (by norm_num)
      have ht := ih _ hd
      simp only [h, if_false]
      rcases hq : putUvarint (x / 128) with _ | ⟨c, bs⟩
      · exact absurd hq (putUvarint_ne_nil _)
      · rw [hq] at ht
        simp only [validVarint, ht, Bool.and_true, Bool.and_eq_true,
          decide_eq_true_eq]
        omega

theorem putUvarint_length_le (cs : Bytes) (hv : validVarint cs = true) :
    (putUvarint (uvarintDecode cs)).length ≤ cs.length := by
  induction cs with
  | nil => simp [validVarint] at hv
  | cons b t ih =>
    cases t with
    | nil =>
      simp only [validVarint, decide_eq_true_eq] at hv
      have hb : uvarintDecode [b] = b := by
        simp [uvarintDecode, Nat.mod_eq_of_lt hv]
      rw [hb, putUvarint_eq, if_pos hv]
    | cons c bs =>
      simp only [validVarint, Bool.and_eq_true, decide_eq_true_eq] at hv
      obtain ⟨⟨hb1, hb2⟩, hvt⟩ := hv
      have iht := ih hvt
      have hrw : uvarintDecode (b :: c :: bs) =
          b % 128 + 128 * uvarintDecode (c :: bs) := rfl
      rw [hrw]
      set d := uvarintDecode (c :: bs) with hdd
      by_cases hx : b % 128 + 128 * d < 128
      · rw [putUvarint_eq, if_pos hx]
        simp only [List.length_cons, List.length_nil]
        omega
      · rw [putUvarint_eq, if_neg hx]
        have hdiv : (b % 128 + 128 * d) / 128 = d := by omega
        rw [hdiv]
        simp only [List.length_cons] at iht ⊢
        omega

/-- C8: `WriteUvarint` and `writeUvarint` both append exactly
`putUvarint x` to the writer; that encoding is a well-formed little-endian
base-128 continuation-bit stream, decodes back to `x`, takes exactly one
byte for values below 128, and is minimal — no well-formed encoding of `x`
(in particular none with superfluous trailing padding) is shorter. -/
theorem writeUvarint_spec (w : Bytes) (x : Nat) (_hx : x < 2 ^ 64) :
    WriteUvarint w x = w ++ putUvarint x ∧
    writeUvarint w x = w ++ putUvarint x ∧
    validVarint (putUvarint x) = true ∧
    uvarintDecode (putUvarint x) = x ∧
    (x < 128 → putUvarint x = [x]) ∧
    ∀ cs, validVarint cs = true → uvarintDecode cs = x →
      (putUvarint x).length ≤ cs.length := by
  refine ⟨rfl, rfl, validVarint_putUvarint x, uvarintDecode_putUvarint x,
    fun h => by rw [putUvarint_eq, if_pos h], fun cs hv hd => ?_⟩
  have hle := putUvarint_length_le cs hv
  rwa [hd] at hle

/-- Witness for C8 at `x = 300` with writer contents `[9]`. -/
theorem writeUvarint_spec_witness :
    300 < 2 ^ 64 ∧
      (WriteUvarint [9] 300 = [9] ++ putUvarint 300 ∧
       writeUvarint [9] 300 = [9] ++ putUvarint 300 ∧
       validVarint (putUvarint 300) = true ∧
       uvarintDecode (putUvarint 300) = 300 ∧
       (300 < 128 → putUvarint 300 = [300]) ∧
       ∀ cs, validVarint cs = true → uvarintDecode cs = 300 →
         (putUvarint 300).length ≤ cs.length) :=
  ⟨by norm_num, writeUvarint_spec [9] 300 (by norm_num)⟩

/-- Witness for C5 at concrete nodes with indices 0 and 1 and a concrete
32-byte hash function. -/
theorem parent_comm_witness :
    (⟨0, [7], 5⟩ : TreeNode).Index ≠ (⟨1, [9], 6⟩ : TreeNode).Index ∧
      Parent Hc ⟨0, [7], 5⟩ ⟨1, [9], 6⟩ = Parent Hc ⟨1, [9], 6⟩ ⟨0, [7], 5⟩ :=
  ⟨by decide, parent_comm Hc ⟨0, [7], 5⟩ ⟨1, [9], 6⟩ (by decide)⟩

theorem goCopy_of_length_eq {src : Bytes} {n : Nat} (h : src.length = n) :
    goCopy (List.replicate n 0) src = src := by
  simp [goCopy, h]

theorem goCopy_seed {H : Bytes → Bytes} (hH : HashPrim H) (name : Bytes) :
    goCopy (List.replicate 33 0) (H name) = H name ++ [0] := by
  have h32 := hH name
  simp [goCopy, h32, List.take_of_length_le (by omega : (H name).length ≤ 33)]

theorem seed_set {s : Bytes} (h : s.length = 32) (v : Nat) :
    (s ++ [0]).set 32 v = s ++ [v] := by
  rw [List.set_append_right 32 v (by omega), h]
  simp

/-- The `i`-th namespace identifier produced by `Namespace`, extracted. -/
theorem namespace_getD (H : Bytes → Bytes) (name : Bytes) (count : Int)
    (i : Nat) (hc : ¬count < 0) (hi : i < count.toNat) :
    ((Namespace H name count).getD []).getD i [] =
      goCopy (List.replicate 32 0)
        ((Hasher.new.write
          ((goCopy (List.replicate 33 0)
            ((Hasher.new.write name).sum H [])).set 32 (i % 256))).sum H []) := by
  simp only [Namespace, hc, if_false, Option.getD_some]
  rw [List.getD_eq_getElem _ _ (by simpa using hi)]
  simp

/-- C9: when `count` exceeds 256 the single-byte index wraps, so any two
positions congruent modulo 256 receive byte-for-byte identical
identifiers. -/
theorem namespace_wraps (H : Bytes → Bytes) (name : Bytes) (count : Int)
    (i j : Nat) (hc : 256 < count) (hi : i < count.toNat)
    (hj : j < count.toNat) (hmod : i % 256 = j % 256) :
    (Namespace H name count).isSome = true ∧
    ((Namespace H name count).getD []).getD i [] =
      ((Namespace H name count).getD []).getD j [] := by
  have hc0 : ¬count < 0 := by omega
  refine ⟨by simp [Namespace, hc0], ?_⟩
  rw [namespace_getD H name count i hc0 hi,
    namespace_getD H name count j hc0 hj, hmod]

/-- Witness for C9 with the concrete hash `Hc`, `count = 257`, indices 256
and 0. -/
theorem namespace_wraps_witness :
    (256 : Int) < 257 ∧ 256 < (257 : Int).toNat ∧ 0 < (257 : Int).toNat ∧
      256 % 256 = 0 % 256 ∧
      ((Namespace Hc [] 257).isSome = true ∧
        ((Namespace Hc [] 257).getD []).getD 256 [] =
          ((Namespace Hc [] 257).getD []).getD 0 []) :=
  ⟨by norm_num, by norm_num, by norm_num, by norm_num,
    namespace_wraps Hc [] 257 256 0 (by norm_num) (by norm_num) (by norm_num)
      (by norm_num)⟩

/-- C4 (amended to `count ≤ 256`): for `0 < count ≤ 256` and a 32-byte hash
primitive, `Namespace(name, count)` returns exactly `count` identifiers of
32 bytes each, the `i`-th being `H (H name ++ [i])` — the hash of the seed
`H name` followed by the single raw index byte. -/
theorem namespace_spec (H : Bytes → Bytes) (hH : HashPrim H) (name : Bytes)
    (count : Int) (h1 : 0 < count) (h2 : count ≤ 256) :
    (Namespace H name count).isSome = true ∧
    ((Namespace H name count).getD []).length = count.toNat ∧
    (∀ d ∈ (Namespace H name count).getD [], d.length = 32) ∧
    ∀ i, i < count.toNat →
      ((Namespace H name count).getD []).getD i [] = H (H name ++ [i]) := by
  have hc0 : ¬count < 0 := by omega
  refine ⟨by simp [Namespace, hc0], by simp [Namespace, hc0], ?_, ?_⟩
  · intro d hd
    simp only [Namespace, hc0, if_false, Option.getD_some, List.mem_map] at hd
    obtain ⟨i, _, rfl⟩ := hd
    have h32 : ∀ x, (H x).length = 32 := hH
    simp [goCopy, Hasher.sum, h32]
  · intro i hi
    rw [namespace_getD H name count i hc0 hi]
    have hseed : (Hasher.new.write name).sum H [] = H name := by
      simp [Hasher.new, Hasher.write, Hasher.sum]
    rw [hseed, goCopy_seed hH name, seed_set (hH name) (i % 256),
      Nat.mod_eq_of_lt (by omega : i < 256)]
    have harg : (Hasher.new.write (H name ++ [i])).sum H [] =
        H (H name ++ [i]) := by
      simp [Hasher.new, Hasher.write, Hasher.sum]
    rw [harg, goCopy_of_length_eq (hH (H name ++ [i]))]

/-- Witness for C4's amended statement at `name = []`, `count = 2` and the
concrete 32-byte hash `Hc`. -/
theorem namespace_spec_witness :
    HashPrim Hc ∧ (0 : Int) < 2 ∧ (2 : Int) ≤ 256 ∧
      ((Namespace Hc [] 2).isSome = true ∧
        ((Namespace Hc [] 2).getD []).length = (2 : Int).toNat ∧
        (∀ d ∈ (Namespace Hc [] 2).getD [], d.length = 32) ∧
        ∀ i, i < (2 : Int).toNat →
          ((Namespace Hc [] 2).getD []).getD i [] = Hc (Hc [] ++ [i])) :=
  ⟨Hc_hashPrim, by norm_num, by norm_num,
    namespace_spec Hc Hc_hashPrim [] 2 (by norm_num) (by norm_num)⟩

/-- C4 as originally stated fails: `count = 257` is positive and `Hc` obeys
the 32-byte hash-primitive contract, yet the identifier at index 256 is not
the hash of the seed followed by a byte of value 256 — the index byte has
wrapped to 0. -/
theorem namespace_spec_cex :
    HashPrim Hc ∧ (0 : Int) < 257 ∧
      ((Namespace Hc [] 257).getD []).getD 256 [] ≠ Hc (Hc [] ++ [256]) := by
  refine ⟨Hc_hashPrim, by norm_num, ?_⟩
  decide

/-- C7: the code does not fail fast on out-of-contract `count`.  At
`count = 257` it silently returns 257 identifiers with the wrapped index
byte making position 256 collide with position 0, and at `count = 0` it
silently returns an empty sequence — neither is a precondition failure. -/
theorem namespace_no_failfast :
    (Namespace Hc [] 257).isSome = true ∧
    (Namespace Hc [] 0).isSome = true ∧
    ((Namespace Hc [] 257).getD []).getD 256 [] =
      ((Namespace Hc [] 257).getD []).getD 0 [] := by
  refine ⟨rfl, rfl, ?_⟩
  decide

end HypercoreCrypto
